import Mathlib

/-!
Shallow embedding of the core of the `acti-rs` repository:
the `immutree` tree container (crates/immutree) and the `actitopo`
topology reduction (crates/actitopo), together with proofs checking the
specification's claims against these definitions.

Machine integers (`u32` NodeIds) are modelled as `Nat`; the claims under
study only concern trees far below the `u32::MAX` node-count bound, where
the two agree.  Rust iterators are modelled by the full list of items they
yield; a Rust panic (out-of-bounds index, `unwrap`, `unreachable!`) is
modelled by `Option.none` or by a dedicated error constructor, as noted at
each definition.
-/

namespace Immutree

/-- Errors of the immutree crate (immutree/src/types.rs, `Error`). -/
inductive Error where
  | RootReplacement
  | NonExistentParent (id : Nat)
  | InvalidNodeId (id : Nat)
deriving DecidableEq, Repr

/-- Insertion placement (immutree/src/types.rs, `InsertMode`).  The Rust
`Under` carries a borrowed NodeId; borrowing is immaterial here. -/
inductive InsertMode where
  | AsRoot
  | Under (parent : Nat)
deriving DecidableEq, Repr

/-- One tree node (immutree/src/types.rs, `TreeNode<T>`): a payload and an
optional list of child NodeIds (`None` when no child was ever added). -/
structure TreeNode (T : Type) where
  data : T
  children : Option (List Nat)
deriving DecidableEq, Repr

/-- The tree container (immutree/src/lib.rs, `Tree<T>`): nodes indexed by
NodeId, plus the construction-only counter (serde-skipped, so it is `0`
right after deserialization). -/
structure Tree (T : Type) where
  nodes : List (TreeNode T)
  next_node_id : Nat
deriving DecidableEq, Repr

/-- `Tree::new` (immutree/src/lib.rs). -/
def Tree.new (T : Type) : Tree T :=
  { nodes := [], next_node_id := 0 }

/-- `Tree::len` (immutree/src/lib.rs). -/
def Tree.len {T : Type} (t : Tree T) : Nat :=
  t.nodes.length

/-- `Tree::is_empty` (immutree/src/lib.rs). -/
def Tree.is_empty {T : Type} (t : Tree T) : Bool :=
  0 == t.nodes.length

/-- `Tree::root` (immutree/src/lib.rs). -/
def Tree.root {T : Type} (t : Tree T) : Option T :=
  (t.nodes.get? 0).map TreeNode.data

/-- `Tree::get_by_id` (immutree/src/lib.rs). -/
def Tree.get_by_id {T : Type} (t : Tree T) (id : Nat) : Option T :=
  (t.nodes.get? id).map TreeNode.data

/-- `TreeNode::add_child_id` (immutree/src/types.rs):
`self.children.get_or_insert(vec![]).push(*id)`. -/
def TreeNode.add_child_id {T : Type} (tn : TreeNode T) (id : Nat) : TreeNode T :=
  { tn with children := some (tn.children.getD [] ++ [id]) }

/-- Apply `add_child_id` to the node at index `p` (the in-place update
`self.nodes[parent_id].add_child_id(..)` of `Tree::insert`).  The source
indexes uncheckedly, justified there by `parent_id < next_node_id`; every
tree on which claims evaluate this keeps that index in bounds. -/
def addChildAt {T : Type} : List (TreeNode T) → Nat → Nat → List (TreeNode T)
  | [], _, _ => []
  | tn :: rest, 0, id => tn.add_child_id id :: rest
  | tn :: rest, q + 1, id => tn :: addChildAt rest q id

/-- `Tree::insert` (immutree/src/lib.rs).  Returns the result together with
the tree after the call (on error the Rust method leaves `self.nodes`
untouched; only the transient counter may have been recomputed). -/
def Tree.insert {T : Type} (t : Tree T) (element : T) (mode : InsertMode) :
    Except Error Nat × Tree T :=
  -- recompute the counter after deserialization (next_node_id == 0, nonempty)
  let t1 : Tree T :=
    if t.next_node_id = 0 ∧ t.nodes.length ≠ 0 then
      { t with next_node_id := t.nodes.length }
    else t
  match mode with
  | .AsRoot =>
    if t1.next_node_id ≠ 0 then
      (.error .RootReplacement, t1)
    else
      (.ok t1.next_node_id,
        { nodes := t1.nodes ++ [{ data := element, children := none }],
          next_node_id := t1.next_node_id + 1 })
  | .Under parent_id =>
    if t1.next_node_id ≤ parent_id then
      (.error (.NonExistentParent parent_id), t1)
    else
      (.ok t1.next_node_id,
        { nodes := addChildAt t1.nodes parent_id t1.next_node_id
                     ++ [{ data := element, children := none }],
          next_node_id := t1.next_node_id + 1 })

/-- The scan of `Tree::parent_id` (immutree/src/lib.rs):
`nodes.iter().enumerate().find(|(_, tn)| tn.children.is_some() && ..contains(id))`,
with `i` the index of the head of the remaining list. -/
def parentFind {T : Type} : List (TreeNode T) → Nat → Nat → Option Nat
  | [], _, _ => none
  | tn :: rest, id, i =>
    match tn.children with
    | some cs => if id ∈ cs then some i else parentFind rest id (i + 1)
    | none => parentFind rest id (i + 1)

/-- `Tree::parent_id` (immutree/src/lib.rs). -/
def Tree.parent_id {T : Type} (t : Tree T) (id : Nat) : Option Nat :=
  parentFind t.nodes id 0

/-- `Tree::immediate_descendant_ids` (immutree/src/lib.rs together with
iterators.rs `ImmediateDescendantIds`): the full list of yielded ids.  A
`None` child list and a `Some(vec![])` both yield nothing. -/
def Tree.immediate_descendant_ids {T : Type} (t : Tree T) (id : Nat) :
    Except Error (List Nat) :=
  match t.nodes.get? id with
  | none => .error (.InvalidNodeId id)
  | some tn => .ok (tn.children.getD [])

/-- The DFS loop of `LeafIds::next` (immutree/src/iterators.rs), run to
exhaustion.  The list argument is the stack with its head on top; popping a
node with `Some(children)` pushes the children in order (so the last child
is popped first), popping a node with `None` children yields its id.
`none` models a dangling-child `unwrap` panic or a diverging cyclic store;
the fuel is irrelevant on well-formed trees (proved below). -/
def leafLoop {T : Type} (nodes : List (TreeNode T)) :
    List Nat → Nat → Option (List Nat)
  | _, 0 => none
  | [], _ + 1 => some []
  | id :: stack, fuel + 1 =>
    match nodes.get? id with
    | none => none
    | some tn =>
      match tn.children with
      | some cs => leafLoop nodes (cs.reverse ++ stack) fuel
      | none => (leafLoop nodes stack fuel).map (fun l => id :: l)

/-- `Tree::leaf_descendant_ids` (immutree/src/lib.rs together with
iterators.rs `LeafIds`): `InvalidNodeId` when the starting id is absent,
otherwise the list of all yielded leaf ids (`none` inside: a panic). -/
def Tree.leaf_descendant_ids {T : Type} (t : Tree T) (id : Nat) :
    Except Error (Option (List Nat)) :=
  match t.nodes.get? id with
  | none => .error (.InvalidNodeId id)
  | some _ => .ok (leafLoop t.nodes [id] (2 ^ t.nodes.length + 1))

/-- The parent map built by the first `AncestorIds::next` call
(immutree/src/iterators.rs): `parents[child] = Some(parent)` for every
child of every node, scanned in index order (later writes win). -/
def parentsMap {T : Type} (nodes : List (TreeNode T)) : List (Option Nat) :=
  (List.range nodes.length).foldl
    (fun acc i =>
      match nodes.get? i with
      | some tn => (tn.children.getD []).foldl (fun a c => a.set c (some i)) acc
      | none => acc)
    (List.replicate nodes.length none)

/-- The yield loop of `AncestorIds::next` (immutree/src/iterators.rs),
started at `curr = Some(id)` and run to exhaustion: each step replaces
`curr` by `parents[curr]` and yields the new value; `parents.get? c = none`
models the out-of-bounds panic of `self.parents[curr as usize]` when the
current id is not an index of the store. -/
def ancestorLoop (parents : List (Option Nat)) : Nat → Nat → Option (List Nat)
  | _, 0 => none
  | c, fuel + 1 =>
    match parents.get? c with
    | none => none
    | some none => some []
    | some (some p) => (ancestorLoop parents p fuel).map (fun l => p :: l)

/-- `Tree::ancestor_ids` (immutree/src/lib.rs together with iterators.rs
`AncestorIds`): no validity check is made on `id`; `none` models a panic
while iterating. -/
def Tree.ancestor_ids {T : Type} (t : Tree T) (id : Nat) : Option (List Nat) :=
  ancestorLoop (parentsMap t.nodes) id (t.nodes.length + 1)

/-- Fold a list of insertion requests over a starting tree, keeping the
tree that results from each call (`Tree::insert` already returns the
unchanged tree on failure). -/
def runFrom {T : Type} (t : Tree T) (reqs : List (T × InsertMode)) : Tree T :=
  reqs.foldl (fun acc r => (acc.insert r.1 r.2).2) t

/-- The tree built from scratch by a sequence of insertion attempts. -/
def buildTree {T : Type} (reqs : List (T × InsertMode)) : Tree T :=
  runFrom (Tree.new T) reqs

/-- A tree is `Built` when some sequence of insertion attempts against a
fresh tree produces it — the construction lifecycle of the crate. -/
def Built {T : Type} (t : Tree T) : Prop :=
  ∃ reqs : List (T × InsertMode), buildTree reqs = t

/-- The results, in order, of a sequence of insertion attempts started on a
fresh tree. -/
def runResults {T : Type} (reqs : List (T × InsertMode)) :
    Tree T × List (Except Error Nat) :=
  reqs.foldl
    (fun acc r =>
      let step := acc.1.insert r.1 r.2
      (step.2, acc.2 ++ [step.1]))
    (Tree.new T, [])

/-- The successful results among a list of insertion outcomes. -/
def okResults (rs : List (Except Error Nat)) : List Nat :=
  rs.foldr (fun r acc => match r with | .ok n => n :: acc | .error _ => acc) []

/-- Number of occurrences of `j` across all child lists of the store. -/
def countIn {T : Type} : List (TreeNode T) → Nat → Nat
  | [], _ => 0
  | tn :: rest, j => (tn.children.getD []).count j + countIn rest j

/-- Membership of `j` in the child list of the node at index `p`. -/
def hasChildIn {T : Type} (nodes : List (TreeNode T)) (p j : Nat) : Prop :=
  ∃ tn, nodes.get? p = some tn ∧ j ∈ tn.children.getD []

/-- Well-formedness invariant of every tree produced by the construction
lifecycle: the counter tracks the length; child lists are nonempty,
strictly increasing, bounded by the length, and point strictly upward;
node 0 has no parent and every other stored id has exactly one parent. -/
structure WF {T : Type} (t : Tree T) : Prop where
  next_eq : t.next_node_id = t.nodes.length
  child_sound : ∀ i tn, t.nodes.get? i = some tn → ∀ cs, tn.children = some cs →
    cs ≠ [] ∧ List.Pairwise (· < ·) cs ∧ ∀ c ∈ cs, i < c ∧ c < t.nodes.length
  count_root : countIn t.nodes 0 = 0
  count_one : ∀ j, 0 < j → j < t.nodes.length → countIn t.nodes j = 1

/-- The list of results of a sequence of insertion attempts, starting from
tree `t` (recursive form of `runResults`). -/
def trail {T : Type} (t : Tree T) : List (T × InsertMode) → List (Except Error Nat)
  | [] => []
  | r :: rest => (t.insert r.1 r.2).1 :: trail (t.insert r.1 r.2).2 rest

/-- Minimal JSON value model, sufficient for the serde_json documents a
`Tree` produces and consumes. -/
inductive Json where
  | num (n : Int)
  | str (s : String)
  | arr (items : List Json)
  | obj (fields : List (String × Json))

/-- Serialization of one `TreeNode` (serde derive on immutree/src/types.rs
`TreeNode`): the `desc` key is present exactly when `children` is `Some`
(`skip_serializing_if = "Option::is_none"`), so `Some(vec![])` serializes
as an empty `desc` array while `None` omits the key. -/
def serializeNode {T : Type} (enc : T → Json) (tn : TreeNode T) : Json :=
  .obj (("data", enc tn.data) ::
    (match tn.children with
     | none => []
     | some cs => [("desc", .arr (cs.map (fun (c : Nat) => .num (c : Int))))]))

/-- Serialization of a `Tree` (serde derive on immutree/src/lib.rs `Tree`):
the node array under the `nodes` key; `next_node_id` is `serde(skip)`ped. -/
def serializeTree {T : Type} (enc : T → Json) (t : Tree T) : Json :=
  .obj [("nodes", .arr (t.nodes.map (serializeNode enc)))]

/-- First value stored under `key`, as serde reads object fields. -/
def jLookup (key : String) : List (String × Json) → Option Json
  | [] => none
  | f :: rest => if f.1 = key then some f.2 else jLookup key rest

/-- Elementwise fallible decoding of a JSON sequence, failing as soon as
one element fails (serde's sequence visitor). -/
def optMapM {A B : Type} (f : A → Option B) : List A → Option (List B)
  | [] => some []
  | a :: rest =>
    match f a with
    | none => none
    | some b => (optMapM f rest).map (fun bs => b :: bs)

/-- Deserialization of a NodeId: a non-negative JSON integer. -/
def jNat : Json → Option Nat
  | .num n => if 0 ≤ n then some n.toNat else none
  | _ => none

/-- Deserialization of one `TreeNode`: `data` required, `desc` optional
(an absent `desc` key and an empty `desc` array both produce a node read
as childless by the traversals). -/
def deserializeNode {T : Type} (dec : Json → Option T) : Json → Option (TreeNode T)
  | .obj fields =>
    match jLookup "data" fields with
    | none => none
    | some dj =>
      match dec dj with
      | none => none
      | some d =>
        match jLookup "desc" fields with
        | none => some { data := d, children := none }
        | some (.arr items) =>
          (optMapM jNat items).map (fun cs => { data := d, children := some cs })
        | some _ => none
  | _ => none

/-- Deserialization of a `Tree`: the `nodes` array, with the skipped
`next_node_id` taking its `Default` value `0`. -/
def deserializeTree {T : Type} (dec : Json → Option T) : Json → Option (Tree T)
  | .obj fields =>
    match jLookup "nodes" fields with
    | some (.arr items) =>
      (optMapM (deserializeNode dec) items).map
        (fun ns => { nodes := ns, next_node_id := 0 })
    | _ => none
  | _ => none

/-- Reachability along child edges, as the reflexive-transitive closure of
"j occurs in p's child list". -/
def ReachableFrom {T : Type} (nodes : List (TreeNode T)) : Nat → Nat → Prop :=
  Relation.ReflTransGen (hasChildIn nodes)

/-- Two optional child lists that differ at most in absent-versus-empty:
`None` and `Some []` both mean "no children". -/
def childrenAE : Option (List Nat) → Option (List Nat) → Prop
  | none, none => True
  | none, some cs => cs = []
  | some cs, none => cs = []
  | some cs, some cs2 => cs = cs2

/-- Trees that differ only in absent-versus-empty child lists. -/
def TreeAE {T : Type} (t1 t2 : Tree T) : Prop :=
  List.Forall₂ (fun a b => a.data = b.data ∧ childrenAE a.children b.children)
    t1.nodes t2.nodes

/-- Termination measure for the leaf DFS: each pending stack entry `id`
weighs `2 ^ (n - id)`; on well-formed stores every DFS step strictly
decreases the total weight. -/
def stackWeight (n : Nat) (stack : List Nat) : Nat :=
  (stack.map (fun id => 2 ^ (n - id))).sum

end Immutree

namespace Actitopo

open Immutree

/-- Cache attributes (actitopo/src/types.rs `CacheAttributes`): `size` and
`linesize` are unsigned in the source, `associativity` is signed (it may
hold a sentinel). -/
structure CacheAttributes where
  size : Nat
  linesize : Nat
  associativity : Int
deriving DecidableEq, Repr

/-- Cache levels (actitopo/src/types.rs `CacheLevel`). -/
inductive CacheLevel where
  | L1
  | L2
  | L3
  | L4
  | L5
deriving DecidableEq, Repr

/-- Processing elements (actitopo/src/types.rs `ProcessingElement`), each
carrying its OS-assigned physical index. -/
inductive ProcessingElement where
  | Package (id : Nat)
  | NumaNode (id : Nat)
  | Core (id : Nat)
  | Thread (id : Nat)
deriving DecidableEq, Repr

/-- Topology elements (actitopo/src/types.rs `Element`). -/
inductive Element where
  | Machine
  | Processing (pe : ProcessingElement)
  | Cache (level : CacheLevel) (logical_index : Nat)
      (attributes : CacheAttributes)
deriving DecidableEq, Repr

/-- Errors of the actitopo crate (actitopo/src/error.rs).  The `Hwloc`
variant cannot arise in this model (the collaborator is abstracted to pure
data); `Panic` additionally models the source's `unreachable!` calls. -/
inductive Error where
  | NoEquivalentElement
  | NoCacheAttributes
  | EmptyTopology
  | MemoryArity (n : Nat)
  | ImmuTree (source : Immutree.Error)
  | Panic
deriving DecidableEq, Repr

/-- The hwloc object kinds distinguished by `Element::try_from`
(actitopo/src/types.rs); `Other` stands for every remaining
`hwloc2::ObjectType` (Group, Die, Bridge, ...), all of which fall to the
`NoEquivalentElement` arm. -/
inductive ObjectType where
  | Machine
  | Package
  | NumaNode
  | Core
  | PU
  | L1Cache
  | L2Cache
  | L3Cache
  | L4Cache
  | L5Cache
  | Other
deriving DecidableEq, Repr

/-- A native topology object as the reducer reads it (`hwloc2::Object`):
kind, OS index, logical index, cache attributes when the object carries
them, ordinary children (`arity()` / `children()`), and memory children
(`memory_arity()` / `memory_first_child()`). -/
inductive NativeObj where
  | mk (object_type : ObjectType) (os_index : Nat) (logical_index : Nat)
      (attributes : Option CacheAttributes)
      (children : List NativeObj) (memChildren : List NativeObj)

/-- The `object_type()` accessor. -/
def NativeObj.object_type : NativeObj → ObjectType
  | .mk ty _ _ _ _ _ => ty

/-- The `children()` accessor (ordinary children). -/
def NativeObj.children : NativeObj → List NativeObj
  | .mk _ _ _ _ ch _ => ch

/-- The memory children; `memory_arity()` is their number. -/
def NativeObj.memChildren : NativeObj → List NativeObj
  | .mk _ _ _ _ _ mch => mch

/-- `Element::try_from(&hwloc2::Object)` (actitopo/src/types.rs): machine,
processing and cache kinds translate; absent cache attributes fall back to
the zeroed `Default` (`try_into().unwrap_or_default()`); every other kind
is `NoEquivalentElement`. -/
def tryFromObj : NativeObj → Except Error Element
  | .mk ty osi li cattrs _ _ =>
    match ty with
    | .Machine => .ok .Machine
    | .Package => .ok (.Processing (.Package osi))
    | .NumaNode => .ok (.Processing (.NumaNode osi))
    | .Core => .ok (.Processing (.Core osi))
    | .PU => .ok (.Processing (.Thread osi))
    | .L1Cache => .ok (.Cache .L1 li (cattrs.getD ⟨0, 0, 0⟩))
    | .L2Cache => .ok (.Cache .L2 li (cattrs.getD ⟨0, 0, 0⟩))
    | .L3Cache => .ok (.Cache .L3 li (cattrs.getD ⟨0, 0, 0⟩))
    | .L4Cache => .ok (.Cache .L4 li (cattrs.getD ⟨0, 0, 0⟩))
    | .L5Cache => .ok (.Cache .L5 li (cattrs.getD ⟨0, 0, 0⟩))
    | .Other => .error .NoEquivalentElement

mutual

/-- `Topology::add_all_descendants` (actitopo/src/lib.rs): insert the sole
memory child (which must be a NumaNode, else the source hits
`unreachable!`) under the parent and use it as effective parent; more than
one memory child fails with `MemoryArity`; then handle ordinary children. -/
def addAll : Immutree.Tree Element → Nat → NativeObj → Except Error (Immutree.Tree Element)
  | t, parent_node_id, .mk _ _ _ _ ch mch =>
    match mch with
    | [] => addAllKids t parent_node_id ch
    | [m] =>
      match m.object_type with
      | .NumaNode =>
        match tryFromObj m with
        | .error err => .error err
        | .ok el =>
          match t.insert el (.Under parent_node_id) with
          | (.ok mem_id, t2) => addAllKids t2 mem_id ch
          | (.error err, _) => .error (.ImmuTree err)
      | _ => .error .Panic
    | _ => .error (.MemoryArity mch.length)

/-- The ordinary-child loop of `add_all_descendants`: translate each child;
on success insert it under the effective parent and recurse into it; on
`NoEquivalentElement` recurse into it with the same effective parent. -/
def addAllKids : Immutree.Tree Element → Nat → List NativeObj → Except Error (Immutree.Tree Element)
  | t, _, [] => .ok t
  | t, eff, c :: rest =>
    match tryFromObj c with
    | .ok el =>
      match t.insert el (.Under eff) with
      | (.ok cid, t2) =>
        match addAll t2 cid c with
        | .ok t3 => addAllKids t3 eff rest
        | .error err => .error err
      | (.error err, _) => .error (.ImmuTree err)
    | .error .NoEquivalentElement =>
      match addAll t eff c with
      | .ok t3 => addAllKids t3 eff rest
      | .error err => .error err
    | .error _ => .error .Panic

end

mutual

/-- `Topology::add_isol_bound_descendants` (actitopo/src/lib.rs): same
memory-child step as `add_all_descendants`; an ordinary child is
materialized only when the current object's arity exceeds 1. -/
def addIsol : Immutree.Tree Element → Nat → NativeObj → Except Error (Immutree.Tree Element)
  | t, parent_node_id, .mk _ _ _ _ ch mch =>
    match mch with
    | [] => addIsolKids t parent_node_id ch.length ch
    | [m] =>
      match m.object_type with
      | .NumaNode =>
        match tryFromObj m with
        | .error err => .error err
        | .ok el =>
          match t.insert el (.Under parent_node_id) with
          | (.ok mem_id, t2) => addIsolKids t2 mem_id ch.length ch
          | (.error err, _) => .error (.ImmuTree err)
      | _ => .error .Panic
    | _ => .error (.MemoryArity mch.length)

/-- The ordinary-child loop of `add_isol_bound_descendants`; `ar` is the
current object's `arity()`.  A translating child is inserted only when
`ar > 1` (i.e., only when it is not a sole child); otherwise its own
descendants are attached to the same effective parent. -/
def addIsolKids : Immutree.Tree Element → Nat → Nat → List NativeObj →
    Except Error (Immutree.Tree Element)
  | t, _, _, [] => .ok t
  | t, eff, ar, c :: rest =>
    match tryFromObj c with
    | .ok el =>
      if 1 < ar then
        match t.insert el (.Under eff) with
        | (.ok cid, t2) =>
          match addIsol t2 cid c with
          | .ok t3 => addIsolKids t3 eff ar rest
          | .error err => .error err
        | (.error err, _) => .error (.ImmuTree err)
      else
        match addIsol t eff c with
        | .ok t3 => addIsolKids t3 eff ar rest
        | .error err => .error err
    | .error .NoEquivalentElement =>
      match addIsol t eff c with
      | .ok t3 => addIsolKids t3 eff ar rest
      | .error err => .error err
    | .error _ => .error .Panic

end

/-- `DetectionMode` (actitopo/src/lib.rs). -/
inductive DetectionMode where
  | Full
  | IsolationBoundariesOnly
deriving DecidableEq, Repr

/-- `Topology::detect` (actitopo/src/lib.rs), with the hwloc collaborator
abstracted to the optional root object it reports: fail with
`EmptyTopology` when there is no root, otherwise translate the root,
insert it as the tree root, then recurse per the selected mode.  The
`Topology` wrapper is serde-transparent, so the tree itself is returned. -/
def detect (mode : DetectionMode) (root_object : Option NativeObj) :
    Except Error (Immutree.Tree Element) :=
  match root_object with
  | none => .error .EmptyTopology
  | some robj =>
    match tryFromObj robj with
    | .error err => .error err
    | .ok el =>
      match (Tree.new Element).insert el .AsRoot with
      | (.ok root_id, t) =>
        match mode with
        | .Full => addAll t root_id robj
        | .IsolationBoundariesOnly => addIsol t root_id robj
      | (.error err, _) => .error (.ImmuTree err)

/-- Scenario B hardware thread: a PU native object with no children. -/
def scenB_pu (i : Nat) : NativeObj :=
  .mk .PU i i none [] []

/-- Scenario B core: two hardware threads, no memory children. -/
def scenB_core : NativeObj :=
  .mk .Core 0 0 none [scenB_pu 0, scenB_pu 1] []

/-- Scenario B package: the core as sole child. -/
def scenB_package : NativeObj :=
  .mk .Package 0 0 none [scenB_core] []

/-- Scenario B machine root: the package as sole child. -/
def scenB_machine : NativeObj :=
  .mk .Machine 0 0 none [scenB_package] []

/-- Scenario C NUMA node, attached as a memory child. -/
def scenC_numa (i : Nat) : NativeObj :=
  .mk .NumaNode i i none [] []

/-- Scenario C machine root with two memory-attached children
(`memory_arity() == 2`). -/
def scenC_machine : NativeObj :=
  .mk .Machine 0 0 none [] [scenC_numa 0, scenC_numa 1]

end Actitopo

namespace Immutree

theorem countIn_append {T : Type} (a b : List (TreeNode T)) (j : Nat) :
    countIn (a ++ b) j = countIn a j + countIn b j := by
  induction a with
  | nil => simp [countIn]
  | cons tn rest ih =>
    simp only [List.cons_append, countIn, List.append_eq]
    rw [ih]
    omega

theorem countIn_pos_of_hasChildIn {T : Type} {nodes : List (TreeNode T)} {p j : Nat}
    (h : hasChildIn nodes p j) : 1 ≤ countIn nodes j := by
  induction nodes generalizing p with
  | nil => obtain ⟨tn, hget, _⟩ := h; simp at hget
  | cons tn rest ih =>
    obtain ⟨tn2, hget, hmem⟩ := h
    cases p with
    | zero =>
      simp only [List.get?, Option.some.injEq] at hget
      subst hget
      have hc : (tn.children.getD []).count j ≠ 0 := by
        intro hz; exact (List.count_eq_zero.mp hz) hmem
      simp only [countIn]; omega
    | succ q =>
      simp only [List.get?] at hget
      have := ih (p := q) ⟨tn2, hget, hmem⟩
      simp only [countIn]; omega

theorem exists_of_countIn_pos {T : Type} {nodes : List (TreeNode T)} {j : Nat}
    (h : 1 ≤ countIn nodes j) : ∃ p, hasChildIn nodes p j := by
  induction nodes with
  | nil => simp [countIn] at h
  | cons tn rest ih =>
    simp only [countIn] at h
    by_cases hc : (tn.children.getD []).count j = 0
    · obtain ⟨p, tn2, hget, hmem⟩ := ih (by omega)
      exact ⟨p + 1, tn2, hget, hmem⟩
    · exact ⟨0, tn, rfl, List.count_pos_iff.mp (by omega)⟩

theorem addChildAt_length {T : Type} (nodes : List (TreeNode T)) (p v : Nat) :
    (addChildAt nodes p v).length = nodes.length := by
  induction nodes generalizing p with
  | nil => simp [addChildAt]
  | cons tn rest ih =>
    cases p with
    | zero => simp [addChildAt]
    | succ q => simp [addChildAt, ih]

theorem addChildAt_get? {T : Type} (nodes : List (TreeNode T)) (p v i : Nat) :
    (addChildAt nodes p v).get? i =
      if i = p then (nodes.get? p).map (fun tn => tn.add_child_id v)
      else nodes.get? i := by
  induction nodes generalizing p i with
  | nil => simp [addChildAt]
  | cons tn rest ih =>
    cases p with
    | zero =>
      cases i with
      | zero => simp [addChildAt]
      | succ k => simp [addChildAt]
    | succ q =>
      cases i with
      | zero => simp [addChildAt]
      | succ k => simpa [addChildAt, Nat.succ_eq_add_one] using ih q k

theorem countIn_addChildAt {T : Type} {nodes : List (TreeNode T)} {p : Nat}
    (hp : p < nodes.length) (v j : Nat) :
    countIn (addChildAt nodes p v) j =
      countIn nodes j + if j = v then 1 else 0 := by
  induction nodes generalizing p with
  | nil => simp at hp
  | cons tn rest ih =>
    cases p with
    | zero =>
      simp only [addChildAt, countIn, TreeNode.add_child_id, Option.getD_some,
        List.count_append]
      have hsg : List.count j [v] = if j = v then 1 else 0 := by
        rcases eq_or_ne j v with rfl | hne
        · simp
        · simp [List.count_singleton', hne, Ne.symm hne]
      omega
    | succ q =>
      have hq : q < rest.length := by simpa using Nat.lt_of_succ_lt_succ hp
      simp only [addChildAt, countIn, ih hq]
      omega

theorem parentFind_eq_none {T : Type} {nodes : List (TreeNode T)} {j : Nat}
    (h : countIn nodes j = 0) (i : Nat) : parentFind nodes j i = none := by
  induction nodes generalizing i with
  | nil => simp [parentFind]
  | cons tn rest ih =>
    simp only [countIn] at h
    cases hcs : tn.children with
    | none =>
      simp only [parentFind, hcs]
      exact ih (by omega) (i + 1)
    | some cs =>
      have hnot : j ∉ cs := by
        apply List.count_eq_zero.mp
        simp only [hcs, Option.getD_some] at h; omega
      simp only [parentFind, hcs, if_neg hnot]
      exact ih (by omega) (i + 1)

theorem parentFind_eq_some {T : Type} {nodes : List (TreeNode T)} {p j : Nat}
    (h1 : countIn nodes j = 1) (h2 : hasChildIn nodes p j) (i : Nat) :
    parentFind nodes j i = some (i + p) := by
  induction nodes generalizing p i with
  | nil => obtain ⟨tn, hget, _⟩ := h2; simp at hget
  | cons tn rest ih =>
    obtain ⟨tn2, hget, hmem⟩ := h2
    cases p with
    | zero =>
      simp only [List.get?, Option.some.injEq] at hget
      subst hget
      cases hcs : tn.children with
      | none => simp [hcs] at hmem
      | some cs =>
        simp only [hcs, Option.getD_some] at hmem
        simp [parentFind, hcs, hmem]
    | succ q =>
      simp only [List.get?] at hget
      have hrest : hasChildIn rest q j := ⟨tn2, hget, hmem⟩
      have hpos := countIn_pos_of_hasChildIn hrest
      simp only [countIn] at h1
      have hzero : (tn.children.getD []).count j = 0 := by omega
      have hrec : parentFind rest j (i + 1) = some (i + 1 + q) :=
        ih (by omega) hrest (i + 1)
      cases hcs : tn.children with
      | none =>
        simp only [parentFind, hcs, hrec]
        congr 1; omega
      | some cs =>
        have hnot : j ∉ cs := by
          apply List.count_eq_zero.mp
          simp only [hcs, Option.getD_some] at hzero; omega
        simp only [parentFind, hcs, if_neg hnot, hrec]
        congr 1; omega

theorem countIn_eq_zero_of_len_le {T : Type} {t : Tree T} (h : WF t) {j : Nat}
    (hj : t.nodes.length ≤ j) : countIn t.nodes j = 0 := by
  by_contra hne
  obtain ⟨p, tn, hget, hmem⟩ := exists_of_countIn_pos (Nat.one_le_iff_ne_zero.mpr hne)
  cases hcs : tn.children with
  | none => simp [hcs] at hmem
  | some cs =>
    have hb := (h.child_sound p tn hget cs hcs).2.2 j
      (by simpa [hcs] using hmem)
    omega

theorem wf_new (T : Type) : WF (Tree.new T) := by
  refine ⟨rfl, ?_, rfl, ?_⟩
  · intro i tn hget; simp [Tree.new] at hget
  · intro j _ hj; simp [Tree.new] at hj

theorem insert_asRoot_err {T : Type} {t : Tree T}
    (h : t.next_node_id = t.nodes.length) (hne : t.nodes.length ≠ 0) (e : T) :
    t.insert e .AsRoot = (.error .RootReplacement, t) := by
  simp only [Tree.insert]
  rw [if_neg (show ¬(t.next_node_id = 0 ∧ t.nodes.length ≠ 0) by omega)]
  rw [if_pos (show t.next_node_id ≠ 0 by omega)]

theorem insert_asRoot_ok {T : Type} {t : Tree T}
    (h : t.next_node_id = t.nodes.length) (hz : t.nodes.length = 0) (e : T) :
    t.insert e .AsRoot =
      (.ok 0, { nodes := [{ data := e, children := none }], next_node_id := 1 }) := by
  have hnil : t.nodes = [] := List.length_eq_zero.mp hz
  simp only [Tree.insert]
  rw [if_neg (show ¬(t.next_node_id = 0 ∧ t.nodes.length ≠ 0) by omega)]
  rw [if_neg (show ¬t.next_node_id ≠ 0 by omega)]
  rw [hnil]
  have hz2 : t.next_node_id = 0 := by omega
  rw [hz2]
  simp

theorem insert_under_err {T : Type} {t : Tree T} {p : Nat}
    (h : t.next_node_id = t.nodes.length) (hp : t.nodes.length ≤ p) (e : T) :
    t.insert e (.Under p) = (.error (.NonExistentParent p), t) := by
  simp only [Tree.insert]
  rw [if_neg (show ¬(t.next_node_id = 0 ∧ t.nodes.length ≠ 0) by omega)]
  rw [if_pos (show t.next_node_id ≤ p by omega)]

theorem insert_under_ok {T : Type} {t : Tree T} {p : Nat}
    (h : t.next_node_id = t.nodes.length) (hp : p < t.nodes.length) (e : T) :
    t.insert e (.Under p) =
      (.ok t.nodes.length,
        { nodes := addChildAt t.nodes p t.nodes.length
                     ++ [{ data := e, children := none }],
          next_node_id := t.nodes.length + 1 }) := by
  simp only [Tree.insert]
  rw [if_neg (show ¬(t.next_node_id = 0 ∧ t.nodes.length ≠ 0) by omega)]
  rw [if_neg (show ¬t.next_node_id ≤ p by omega)]
  rw [h]

theorem wf_after_root {T : Type} (e : T) :
    WF { nodes := [{ data := e, children := none }], next_node_id := 1 } := by
  refine ⟨rfl, ?_, rfl, ?_⟩
  · intro i tn hget cs hcs
    cases i with
    | zero =>
      simp only [List.get?, Option.some.injEq] at hget
      subst hget
      simp at hcs
    | succ k => simp [List.get?] at hget
  · intro j hj hjlen
    simp only [List.length_singleton] at hjlen
    omega

theorem wf_after_under {T : Type} {t : Tree T} (h : WF t) {p : Nat}
    (hp : p < t.nodes.length) (e : T) :
    WF { nodes := addChildAt t.nodes p t.nodes.length
                    ++ [{ data := e, children := none }],
         next_node_id := t.nodes.length + 1 } := by
  have hlen : (addChildAt t.nodes p t.nodes.length
      ++ [({ data := e, children := none } : TreeNode T)]).length
      = t.nodes.length + 1 := by
    simp [addChildAt_length]
  refine ⟨hlen.symm, ?_, ?_, ?_⟩
  · intro i tn hget cs hcs
    simp only at hget ⊢
    rw [hlen]
    by_cases hi : i < t.nodes.length
    · rw [List.get?_append (by rw [addChildAt_length]; omega)] at hget
      rw [addChildAt_get?] at hget
      by_cases hip : i = p
      · subst hip
        rw [if_pos rfl] at hget
        cases hold : t.nodes.get? i with
        | none => rw [hold] at hget; cases hget
        | some tn0 =>
          rw [hold] at hget
          simp only [Option.map_some', Option.some.injEq] at hget
          subst hget
          simp only [TreeNode.add_child_id, Option.some.injEq] at hcs
          subst hcs
          refine ⟨by simp, ?_, ?_⟩
          · rw [List.pairwise_append]
            refine ⟨?_, List.pairwise_singleton _ _, ?_⟩
            · cases hcs0 : tn0.children with
              | none => simp [hcs0]
              | some cs0 =>
                simpa [hcs0] using (h.child_sound i tn0 hold cs0 hcs0).2.1
            · intro a ha b hb
              simp only [List.mem_singleton] at hb
              subst hb
              cases hcs0 : tn0.children with
              | none => simp [hcs0] at ha
              | some cs0 =>
                have := (h.child_sound i tn0 hold cs0 hcs0).2.2 a
                  (by simpa [hcs0] using ha)
                omega
          · intro c hc
            rcases List.mem_append.mp hc with hc1 | hc2
            · cases hcs0 : tn0.children with
              | none => simp [hcs0] at hc1
              | some cs0 =>
                have := (h.child_sound i tn0 hold cs0 hcs0).2.2 c
                  (by simpa [hcs0] using hc1)
                omega
            · simp only [List.mem_singleton] at hc2
              omega
      · rw [if_neg hip] at hget
        have hs := h.child_sound i tn hget cs hcs
        exact ⟨hs.1, hs.2.1, fun c hc => ⟨(hs.2.2 c hc).1, by
          have := (hs.2.2 c hc).2; omega⟩⟩
    · have hi2 : i < t.nodes.length + 1 := by
        by_contra hcon
        rw [List.get?_eq_none.mpr (by rw [hlen]; omega)] at hget
        cases hget
      have hiL : i = t.nodes.length := by omega
      subst hiL
      rw [List.get?_append_right (by rw [addChildAt_length])] at hget
      rw [addChildAt_length, Nat.sub_self] at hget
      simp only [List.get?, Option.some.injEq] at hget
      subst hget
      simp at hcs
  · simp only
    rw [countIn_append, countIn_addChildAt hp]
    have hsing : countIn [({ data := e, children := none } : TreeNode T)] 0 = 0 := by
      simp [countIn]
    rw [hsing, h.count_root]
    have hne : (0 : Nat) ≠ t.nodes.length := by omega
    simp [hne]
  · intro j hj hjlen
    simp only at hjlen ⊢
    rw [hlen] at hjlen
    rw [countIn_append, countIn_addChildAt hp]
    have hsing : countIn [({ data := e, children := none } : TreeNode T)] j = 0 := by
      simp [countIn]
    rw [hsing]
    by_cases hjL : j = t.nodes.length
    · subst hjL
      rw [countIn_eq_zero_of_len_le h (le_refl _)]
      simp
    · rw [h.count_one j hj (by omega)]
      simp [hjL]

theorem WF.insert_wf {T : Type} {t : Tree T} (h : WF t) (e : T) (m : InsertMode) :
    WF (t.insert e m).2 := by
  cases m with
  | AsRoot =>
    by_cases hz : t.nodes.length = 0
    · rw [insert_asRoot_ok h.next_eq hz e]
      exact wf_after_root e
    · rw [insert_asRoot_err h.next_eq hz e]
      exact h
  | Under p =>
    by_cases hp : p < t.nodes.length
    · rw [insert_under_ok h.next_eq hp e]
      exact wf_after_under h hp e
    · rw [insert_under_err h.next_eq (by omega) e]
      exact h

theorem runFrom_wf {T : Type} {t : Tree T} (h : WF t)
    (reqs : List (T × InsertMode)) : WF (runFrom t reqs) := by
  induction reqs generalizing t with
  | nil => exact h
  | cons r rest ih =>
    simp only [runFrom, List.foldl_cons]
    exact ih (h.insert_wf r.1 r.2)

theorem built_wf {T : Type} {t : Tree T} (h : Built t) : WF t := by
  obtain ⟨reqs, hb⟩ := h
  rw [← hb]
  exact runFrom_wf (wf_new T) reqs

theorem runResults_eq_trail_aux {T : Type} (reqs : List (T × InsertMode)) :
    ∀ (t : Tree T) (acc : List (Except Error Nat)),
      reqs.foldl
        (fun a r =>
          let step := a.1.insert r.1 r.2
          (step.2, a.2 ++ [step.1]))
        (t, acc) = (runFrom t reqs, acc ++ trail t reqs) := by
  induction reqs with
  | nil => intro t acc; simp [runFrom, trail]
  | cons r rest ih =>
    intro t acc
    simp only [List.foldl_cons, runFrom, trail]
    rw [ih]
    simp [runFrom]

theorem runResults_eq_trail {T : Type} (reqs : List (T × InsertMode)) :
    runResults reqs = (buildTree reqs, trail (Tree.new T) reqs) := by
  simpa [runResults, buildTree] using
    runResults_eq_trail_aux reqs (Tree.new T) []

/-- On failure, `Tree::insert` leaves the node store untouched (for any
tree state whatsoever, well-formed or not). -/
theorem insert_err_nodes {T : Type} {t : Tree T} {e : T} {m : InsertMode}
    {err : Error} (h : (t.insert e m).1 = .error err) :
    (t.insert e m).2.nodes = t.nodes := by
  cases m with
  | AsRoot =>
    simp only [Tree.insert] at h ⊢
    by_cases hc : t.next_node_id = 0 ∧ t.nodes.length ≠ 0
    · rw [if_pos hc] at h ⊢
      by_cases h2 : t.nodes.length ≠ 0
      · rw [if_pos (show ({ t with next_node_id := t.nodes.length } :
          Tree T).next_node_id ≠ 0 from h2)]
      · exact absurd h2 (fun h3 => h3 hc.2)
    · rw [if_neg hc] at h ⊢
      by_cases h2 : t.next_node_id ≠ 0
      · rw [if_pos h2]
      · rw [if_neg h2] at h
        cases h
  | Under p =>
    simp only [Tree.insert] at h ⊢
    by_cases hc : t.next_node_id = 0 ∧ t.nodes.length ≠ 0
    · rw [if_pos hc] at h ⊢
      by_cases h2 : t.nodes.length ≤ p
      · rw [if_pos (show ({ t with next_node_id := t.nodes.length } :
          Tree T).next_node_id ≤ p from h2)]
      · rw [if_neg (show ¬({ t with next_node_id := t.nodes.length } :
          Tree T).next_node_id ≤ p from h2)] at h
        cases h
    · rw [if_neg hc] at h ⊢
      by_cases h2 : t.next_node_id ≤ p
      · rw [if_pos h2]
      · rw [if_neg h2] at h
        cases h

/-- On failure, `Tree::insert` returns the very same tree when the tree is
well-formed (the counter recomputation is a no-op there). -/
theorem insert_err_tree {T : Type} {t : Tree T} (h : WF t) {e : T}
    {m : InsertMode} {err : Error} (herr : (t.insert e m).1 = .error err) :
    (t.insert e m).2 = t := by
  cases m with
  | AsRoot =>
    by_cases hz : t.nodes.length = 0
    · rw [insert_asRoot_ok h.next_eq hz e] at herr
      cases herr
    · rw [insert_asRoot_err h.next_eq hz e]
  | Under p =>
    by_cases hp : p < t.nodes.length
    · rw [insert_under_ok h.next_eq hp e] at herr
      cases herr
    · rw [insert_under_err h.next_eq (by omega) e]

/-- Inserting never shrinks the store, and grows it by exactly one on
success. -/
theorem insert_length {T : Type} {t : Tree T} (h : WF t) (e : T) (m : InsertMode) :
    t.nodes.length ≤ (t.insert e m).2.nodes.length := by
  cases m with
  | AsRoot =>
    by_cases hz : t.nodes.length = 0
    · rw [insert_asRoot_ok h.next_eq hz e]; simp [hz]
    · rw [insert_asRoot_err h.next_eq hz e]
  | Under p =>
    by_cases hp : p < t.nodes.length
    · rw [insert_under_ok h.next_eq hp e]
      simp [addChildAt_length]
    · rw [insert_under_err h.next_eq (by omega) e]

/-- A single insertion preserves existing parent/child facts about ids that
are already stored: the occurrence of `j` in `p`'s child list survives, and
the total occurrence count of `j` is unchanged. -/
theorem insert_keeps {T : Type} {t : Tree T} (h : WF t) {j p : Nat}
    (hj : j < t.nodes.length) (hp : hasChildIn t.nodes p j) (e : T)
    (m : InsertMode) :
    hasChildIn (t.insert e m).2.nodes p j ∧
      countIn (t.insert e m).2.nodes j = countIn t.nodes j := by
  cases m with
  | AsRoot =>
    by_cases hz : t.nodes.length = 0
    · omega
    · rw [insert_asRoot_err h.next_eq hz e]
      exact ⟨hp, rfl⟩
  | Under q =>
    by_cases hq : q < t.nodes.length
    · rw [insert_under_ok h.next_eq hq e]
      obtain ⟨tn, hget, hmem⟩ := hp
      have hplen : p < t.nodes.length := by
        by_contra hcon
        rw [List.get?_eq_none.mpr (by omega)] at hget
        cases hget
      constructor
      · by_cases hpq : p = q
        · subst hpq
          refine ⟨tn.add_child_id t.nodes.length, ?_, ?_⟩
          · rw [List.get?_append (by rw [addChildAt_length]; omega),
              addChildAt_get?, if_pos rfl, hget]
            rfl
          · simp only [TreeNode.add_child_id, Option.getD_some]
            exact List.mem_append.mpr (Or.inl hmem)
        · refine ⟨tn, ?_, hmem⟩
          rw [List.get?_append (by rw [addChildAt_length]; omega),
            addChildAt_get?, if_neg hpq, hget]
      · rw [countIn_append, countIn_addChildAt hq]
        have hsing : countIn [({ data := e, children := none } : TreeNode T)] j = 0 := by
          simp [countIn]
        have hjne : j ≠ t.nodes.length := by omega
        simp [hsing, hjne]
    · rw [insert_under_err h.next_eq (by omega) e]
      exact ⟨hp, rfl⟩

/-- Running further insertions preserves existing parent/child facts. -/
theorem runFrom_keeps {T : Type} (reqs : List (T × InsertMode)) {t : Tree T}
    (h : WF t) {j p : Nat} (hj : j < t.nodes.length)
    (hp : hasChildIn t.nodes p j) (hc : countIn t.nodes j = 1) :
    hasChildIn (runFrom t reqs).nodes p j ∧
      countIn (runFrom t reqs).nodes j = 1 := by
  induction reqs generalizing t with
  | nil => exact ⟨hp, hc⟩
  | cons r rest ih =>
    simp only [runFrom, List.foldl_cons]
    have hstep := insert_keeps h hj hp r.1 r.2
    have hwf2 := h.insert_wf r.1 r.2
    have hlen2 : j < (t.insert r.1 r.2).2.nodes.length :=
      lt_of_lt_of_le hj (insert_length h r.1 r.2)
    have := ih hwf2 hlen2 hstep.1 (hstep.2.trans hc)
    simpa [runFrom] using this

theorem runFrom_cons {T : Type} (t : Tree T) (r : T × InsertMode)
    (rest : List (T × InsertMode)) :
    runFrom t (r :: rest) = runFrom (t.insert r.1 r.2).2 rest := by
  simp [runFrom]

theorem trail_cons {T : Type} (t : Tree T) (r : T × InsertMode)
    (rest : List (T × InsertMode)) :
    trail t (r :: rest) = (t.insert r.1 r.2).1 :: trail (t.insert r.1 r.2).2 rest :=
  rfl

theorem okResults_cons_ok (n : Nat) (rs : List (Except Error Nat)) :
    okResults (.ok n :: rs) = n :: okResults rs :=
  rfl

theorem okResults_cons_err (e : Error) (rs : List (Except Error Nat)) :
    okResults (.error e :: rs) = okResults rs :=
  rfl

/-- Along any insertion-request sequence from a well-formed tree, the
successful results are exactly the next identities in order. -/
theorem trail_ok {T : Type} (reqs : List (T × InsertMode)) :
    ∀ {t : Tree T}, WF t →
      ∃ k, (runFrom t reqs).nodes.length = t.nodes.length + k ∧
        okResults (trail t reqs) = List.range' t.nodes.length k := by
  induction reqs with
  | nil =>
    intro t _
    exact ⟨0, by simp [runFrom], by simp [trail, okResults]⟩
  | cons r rest ih =>
    intro t h
    obtain ⟨e, m⟩ := r
    cases m with
    | AsRoot =>
      by_cases hz : t.nodes.length = 0
      · have hins := insert_asRoot_ok h.next_eq hz e
        obtain ⟨k, hk1, hk2⟩ := ih (wf_after_root e)
        refine ⟨k + 1, ?_, ?_⟩
        · rw [runFrom_cons, hins]
          simp only [List.length_singleton] at hk1
          simpa [hk1] using by omega
        · rw [trail_cons, hins]
          simp only [okResults_cons_ok, hk2]
          rw [hz]
          simp [List.range'_succ]
      · have hins := insert_asRoot_err h.next_eq hz e
        obtain ⟨k, hk1, hk2⟩ := ih h
        refine ⟨k, ?_, ?_⟩
        · rw [runFrom_cons, hins]
          exact hk1
        · rw [trail_cons, hins]
          simpa [okResults_cons_err] using hk2
    | Under p =>
      by_cases hp : p < t.nodes.length
      · have hins := insert_under_ok h.next_eq hp e
        obtain ⟨k, hk1, hk2⟩ := ih (wf_after_under h hp e)
        have hlen2 : (addChildAt t.nodes p t.nodes.length
            ++ [({ data := e, children := none } : TreeNode T)]).length
            = t.nodes.length + 1 := by
          simp [addChildAt_length]
        refine ⟨k + 1, ?_, ?_⟩
        · rw [runFrom_cons, hins]
          simp only [hlen2] at hk1
          simpa [hk1] using by omega
        · rw [trail_cons, hins]
          simp only [okResults_cons_ok, hk2, hlen2]
          rw [List.range'_succ]
      · have hins := insert_under_err h.next_eq (Nat.le_of_not_lt hp) e
        obtain ⟨k, hk1, hk2⟩ := ih h
        refine ⟨k, ?_, ?_⟩
        · rw [runFrom_cons, hins]
          exact hk1
        · rw [trail_cons, hins]
          simpa [okResults_cons_err] using hk2

/-- A tree whose counter is `0` inserts exactly like its normalization
whose counter equals the length (the recomputation step of the source). -/
theorem insert_normalize {T : Type} (ns : List (TreeNode T)) (e : T)
    (m : InsertMode) :
    Tree.insert { nodes := ns, next_node_id := 0 } e m =
      Tree.insert { nodes := ns, next_node_id := ns.length } e m := by
  by_cases hz : ns.length = 0
  · rw [show ns.length = 0 from hz]
  · simp only [Tree.insert]
    rw [if_pos (show True ∧ ns.length ≠ 0 from ⟨trivial, hz⟩)]
    rw [if_neg (show ¬(ns.length = 0 ∧ ns.length ≠ 0) from fun hc => hz hc.1)]

theorem foldl_set_length (cs : List Nat) (v : Option Nat) :
    ∀ acc : List (Option Nat),
      (cs.foldl (fun a c => a.set c v) acc).length = acc.length := by
  induction cs with
  | nil => intro acc; rfl
  | cons c rest ih =>
    intro acc
    simp only [List.foldl_cons]
    rw [ih]
    exact List.length_set acc c v

theorem parentsMap_length {T : Type} (nodes : List (TreeNode T)) :
    (parentsMap nodes).length = nodes.length := by
  unfold parentsMap
  have key : ∀ (l : List Nat) (acc : List (Option Nat)),
      (l.foldl
        (fun acc i =>
          match nodes.get? i with
          | some tn => (tn.children.getD []).foldl (fun a c => a.set c (some i)) acc
          | none => acc)
        acc).length = acc.length := by
    intro l
    induction l with
    | nil => intro acc; rfl
    | cons i rest ih =>
      intro acc
      simp only [List.foldl_cons]
      rw [ih]
      cases nodes.get? i with
      | none => rfl
      | some tn => exact foldl_set_length _ _ acc
  rw [key]
  exact List.length_replicate _ _

/-- Sum of weights of a strictly increasing child list whose members lie
strictly between `id` and `n` is at most `2 ^ (n - id) - 2`. -/
theorem sum_pow_lt {n : Nat} : ∀ {cs : List Nat} {id : Nat},
    List.Pairwise (· < ·) cs → (∀ c ∈ cs, id < c ∧ c < n) →
    (cs.map (fun c => 2 ^ (n - c))).sum ≤ 2 ^ (n - id) - 2 := by
  intro cs
  induction cs with
  | nil => intro id _ _; simp
  | cons c rest ih =>
    intro id hpw hbound
    have hc := hbound c (List.mem_cons_self c rest)
    have hpw2 := List.pairwise_cons.mp hpw
    have hrest : ∀ x ∈ rest, c < x ∧ x < n :=
      fun x hx => ⟨hpw2.1 x hx, (hbound x (List.mem_cons_of_mem c hx)).2⟩
    have ih2 := ih hpw2.2 hrest
    have h2 : 2 ≤ 2 ^ (n - c) := by
      calc 2 = 2 ^ 1 := rfl
      _ ≤ 2 ^ (n - c) := Nat.pow_le_pow_right (by omega) (by omega)
    have h1 : 2 ^ (n - c) * 2 = 2 ^ (n - c + 1) := (Nat.pow_succ 2 (n - c)).symm
    have h3 : 2 ^ (n - c + 1) ≤ 2 ^ (n - id) :=
      Nat.pow_le_pow_right (by omega) (by omega)
    simp only [List.map_cons, List.sum_cons]
    omega

/-- On a well-formed store, the leaf DFS loop terminates within any fuel
exceeding the stack weight, and every id it yields is reachable from some
stack entry and has a `None` child list. -/
theorem leafLoop_total {T : Type} {t : Tree T} (h : WF t) :
    ∀ (fuel : Nat) (stack : List Nat),
      (∀ id ∈ stack, id < t.nodes.length) →
      stackWeight t.nodes.length stack < fuel →
      ∃ l, leafLoop t.nodes stack fuel = some l ∧
        ∀ x ∈ l, (∃ s ∈ stack, ReachableFrom t.nodes s x) ∧
          ∃ tn, t.nodes.get? x = some tn ∧ tn.children = none := by
  intro fuel
  induction fuel with
  | zero => intro stack _ hw; omega
  | succ fuel ih =>
    intro stack hb hw
    cases stack with
    | nil =>
      refine ⟨[], rfl, ?_⟩
      intro x hx
      simp at hx
    | cons id rest =>
      have hid : id < t.nodes.length := hb id (List.mem_cons_self id rest)
      obtain ⟨tn, htn⟩ : ∃ tn, t.nodes.get? id = some tn := by
        cases hg : t.nodes.get? id with
        | none => rw [List.get?_eq_none] at hg; omega
        | some tn => exact ⟨tn, rfl⟩
      have hwt : 2 ≤ 2 ^ (t.nodes.length - id) := by
        calc 2 = 2 ^ 1 := rfl
        _ ≤ 2 ^ (t.nodes.length - id) := Nat.pow_le_pow_right (by omega) (by omega)
      have hwcons : stackWeight t.nodes.length (id :: rest) =
          2 ^ (t.nodes.length - id) + stackWeight t.nodes.length rest := by
        simp [stackWeight]
      cases hcs : tn.children with
      | none =>
        have hw2 : stackWeight t.nodes.length rest < fuel := by omega
        obtain ⟨l, hl, hprop⟩ :=
          ih rest (fun x hx => hb x (List.mem_cons_of_mem id hx)) hw2
        refine ⟨id :: l, ?_, ?_⟩
        · simp [leafLoop, ← List.get?_eq_getElem?, htn, hcs, hl]
        · intro x hx
          rcases List.mem_cons.mp hx with rfl | hx2
          · exact ⟨⟨x, List.mem_cons_self x rest, Relation.ReflTransGen.refl⟩,
              tn, htn, hcs⟩
          · obtain ⟨⟨s, hs, hr⟩, hleaf⟩ := hprop x hx2
            exact ⟨⟨s, List.mem_cons_of_mem id hs, hr⟩, hleaf⟩
      | some cs =>
        have hsound := h.child_sound id tn htn cs hcs
        have hrevsum : ((cs.reverse.map (fun c =>
            2 ^ (t.nodes.length - c))).sum = (cs.map (fun c =>
            2 ^ (t.nodes.length - c))).sum) := by
          rw [List.map_reverse, List.sum_reverse]
        have hcsum := sum_pow_lt hsound.2.1 (fun c hc => hsound.2.2 c hc)
        have hw2 : stackWeight t.nodes.length (cs.reverse ++ rest) < fuel := by
          have hsplit : stackWeight t.nodes.length (cs.reverse ++ rest) =
              (cs.reverse.map (fun c => 2 ^ (t.nodes.length - c))).sum +
              stackWeight t.nodes.length rest := by
            simp [stackWeight]
          omega
        have hb2 : ∀ x ∈ cs.reverse ++ rest, x < t.nodes.length := by
          intro x hx
          rcases List.mem_append.mp hx with hx1 | hx2
          · exact (hsound.2.2 x (List.mem_reverse.mp hx1)).2
          · exact hb x (List.mem_cons_of_mem id hx2)
        obtain ⟨l, hl, hprop⟩ := ih (cs.reverse ++ rest) hb2 hw2
        refine ⟨l, by simp [leafLoop, ← List.get?_eq_getElem?, htn, hcs, hl], ?_⟩
        intro x hx
        obtain ⟨⟨s, hs, hr⟩, hleaf⟩ := hprop x hx
        rcases List.mem_append.mp hs with hs1 | hs2
        · refine ⟨⟨id, List.mem_cons_self id rest, ?_⟩, hleaf⟩
          refine Relation.ReflTransGen.head ⟨tn, htn, ?_⟩ hr
          rw [hcs]
          exact List.mem_reverse.mp hs1
        · exact ⟨⟨s, List.mem_cons_of_mem id hs2, hr⟩, hleaf⟩

theorem childrenAE_getD {a b : Option (List Nat)} (h : childrenAE a b) :
    a.getD [] = b.getD [] := by
  cases a with
  | none =>
    cases b with
    | none => rfl
    | some cs => simp only [childrenAE] at h; simp [h]
  | some cs =>
    cases b with
    | none => simp only [childrenAE] at h; simp [h]
    | some cs2 => simp only [childrenAE] at h; simp [h]

theorem forall₂_get?_rel {α β : Type} {R : α → β → Prop} :
    ∀ {l1 : List α} {l2 : List β}, List.Forall₂ R l1 l2 → ∀ i,
      (l1.get? i = none ∧ l2.get? i = none) ∨
      (∃ a b, l1.get? i = some a ∧ l2.get? i = some b ∧ R a b) := by
  intro l1 l2 h
  induction h with
  | nil => intro i; exact Or.inl ⟨rfl, rfl⟩
  | cons hr _ ih =>
    intro i
    cases i with
    | zero => exact Or.inr ⟨_, _, rfl, rfl, hr⟩
    | succ j => exact ih j

theorem parentFind_AE {T : Type} : ∀ {l1 l2 : List (TreeNode T)},
    List.Forall₂ (fun a b => a.data = b.data ∧ childrenAE a.children b.children)
      l1 l2 →
    ∀ (id i : Nat), parentFind l1 id i = parentFind l2 id i := by
  intro l1 l2 h
  induction h with
  | nil => intro id i; rfl
  | cons hr hrest ih =>
    intro id i
    rename_i a b l1t l2t
    have hgd := childrenAE_getD hr.2
    cases hca : a.children with
    | none =>
      cases hcb : b.children with
      | none =>
        simp only [parentFind, hca, hcb]
        exact ih id (i + 1)
      | some cs2 =>
        rw [hca, hcb] at hgd
        simp only [Option.getD_none, Option.getD_some] at hgd
        have hcs2 : id ∉ cs2 := by rw [← hgd]; simp
        simp only [parentFind, hca, hcb, if_neg hcs2]
        exact ih id (i + 1)
    | some cs =>
      cases hcb : b.children with
      | none =>
        rw [hca, hcb] at hgd
        simp only [Option.getD_none, Option.getD_some] at hgd
        have hcs : id ∉ cs := by rw [hgd]; simp
        simp only [parentFind, hca, hcb, if_neg hcs]
        exact ih id (i + 1)
      | some cs2 =>
        rw [hca, hcb] at hgd
        simp only [Option.getD_some] at hgd
        subst hgd
        simp only [parentFind, hca, hcb]
        by_cases hmem : id ∈ cs
        · simp [hmem]
        · simp only [if_neg hmem]
          exact ih id (i + 1)

theorem mapM_jNat (cs : List Nat) :
    optMapM jNat (cs.map (fun (c : Nat) => Json.num (c : Int))) = some cs := by
  induction cs with
  | nil => rfl
  | cons c rest ih =>
    simp only [List.map_cons, optMapM, jNat]
    rw [if_pos (Int.natCast_nonneg c)]
    simp [ih]

theorem deserializeNode_serializeNode {T : Type} (enc : T → Json)
    (dec : Json → Option T) (hdec : ∀ x, dec (enc x) = some x)
    (tn : TreeNode T) :
    deserializeNode dec (serializeNode enc tn) = some tn := by
  obtain ⟨d, ch⟩ := tn
  cases ch with
  | none => simp [serializeNode, deserializeNode, jLookup, hdec]
  | some cs => simp [serializeNode, deserializeNode, jLookup, hdec, mapM_jNat]

theorem mapM_deserialize_nodes {T : Type} (enc : T → Json)
    (dec : Json → Option T) (hdec : ∀ x, dec (enc x) = some x) :
    ∀ ns : List (TreeNode T),
      optMapM (deserializeNode dec) (ns.map (serializeNode enc)) = some ns := by
  intro ns
  induction ns with
  | nil => rfl
  | cons tn rest ih =>
    simp only [List.map_cons, optMapM,
      deserializeNode_serializeNode enc dec hdec, ih]
    rfl

theorem deserialize_serialize {T : Type} (enc : T → Json)
    (dec : Json → Option T) (hdec : ∀ x, dec (enc x) = some x) (t : Tree T) :
    deserializeTree dec (serializeTree enc t) =
      some { nodes := t.nodes, next_node_id := 0 } := by
  simp [serializeTree, deserializeTree, jLookup,
    mapM_deserialize_nodes enc dec hdec]

theorem parentsMap_AE {T : Type} {t1 t2 : Tree T} (h : TreeAE t1 t2) :
    parentsMap t1.nodes = parentsMap t2.nodes := by
  have hlen : t1.nodes.length = t2.nodes.length := List.Forall₂.length_eq h
  unfold parentsMap
  rw [hlen]
  apply List.foldl_ext
  intro acc i _
  rcases forall₂_get?_rel h i with ⟨hn1, hn2⟩ | ⟨a, b, ha, hb, hab⟩
  · simp only [hn1, hn2]
  · simp only [ha, hb]
    rw [childrenAE_getD hab.2]

end Immutree

section Sanity

open Immutree

-- Scenario A of the spec (mirrors immutree's test t1): the 15-node tree.
example :
    (buildTree ((0, InsertMode.AsRoot) ::
      [(1, InsertMode.Under 0), (2, InsertMode.Under 0),
       (3, InsertMode.Under 1), (4, InsertMode.Under 1),
       (5, InsertMode.Under 2), (6, InsertMode.Under 2),
       (7, InsertMode.Under 3), (8, InsertMode.Under 3),
       (9, InsertMode.Under 4), (10, InsertMode.Under 4),
       (11, InsertMode.Under 5), (12, InsertMode.Under 5),
       (13, InsertMode.Under 6), (14, InsertMode.Under 6)])).nodes =
    [⟨0, some [1, 2]⟩, ⟨1, some [3, 4]⟩, ⟨2, some [5, 6]⟩,
     ⟨3, some [7, 8]⟩, ⟨4, some [9, 10]⟩, ⟨5, some [11, 12]⟩,
     ⟨6, some [13, 14]⟩, ⟨7, none⟩, ⟨8, none⟩, ⟨9, none⟩, ⟨10, none⟩,
     ⟨11, none⟩, ⟨12, none⟩, ⟨13, none⟩, ⟨14, none⟩] := by
  decide

example :
    (buildTree [((0 : Nat), InsertMode.AsRoot), (1, InsertMode.Under 0),
      (2, InsertMode.Under 1)]).ancestor_ids 2 = some [1, 0] := by
  decide

example :
    (buildTree [((0 : Nat), InsertMode.AsRoot), (1, InsertMode.Under 0),
      (2, InsertMode.Under 0)]).leaf_descendant_ids 0 = .ok (some [2, 1]) := by
  rfl

end Sanity

namespace Immutree

theorem insert_spec_of_next_eq {T : Type} {t : Tree T}
    (h : t.next_node_id = t.nodes.length) (e : T) (p : Nat) :
    ((t.insert e .AsRoot).1 = .error .RootReplacement ↔ t.nodes.length ≠ 0) ∧
    ((t.insert e (.Under p)).1 = .error (.NonExistentParent p) ↔
      t.nodes.length ≤ p) ∧
    (t.nodes.length = 0 → (t.insert e .AsRoot).1 = .ok 0) ∧
    (p < t.nodes.length → (t.insert e (.Under p)).1 = .ok t.nodes.length) := by
  refine ⟨⟨?_, ?_⟩, ⟨?_, ?_⟩, ?_, ?_⟩
  · intro herr
    by_contra hz
    rw [insert_asRoot_ok h hz e] at herr
    cases herr
  · intro hz
    rw [insert_asRoot_err h hz e]
  · intro herr
    by_contra hp
    rw [insert_under_ok h (Nat.lt_of_not_le hp) e] at herr
    cases herr
  · intro hp
    rw [insert_under_err h hp e]
  · intro hz
    rw [insert_asRoot_ok h hz e]
  · intro hp
    rw [insert_under_ok h hp e]

end Immutree

section Claims

open Immutree

/-- C4: for every sequence of insertion attempts into a tree created
empty, the successful insertions return, in order, the NodeIds
0, 1, 2, ..., regardless of which attempts in between failed: the list of
successful results is exactly `range` of the final node count. -/
theorem c4_insertion_ids_dense {T : Type} (reqs : List (T × InsertMode)) :
    okResults (runResults reqs).2 =
      List.range (runResults reqs).1.nodes.length := by
  rw [runResults_eq_trail]
  show okResults (trail (Tree.new T) reqs) = List.range (buildTree reqs).nodes.length
  obtain ⟨k, hk1, hk2⟩ := trail_ok reqs (wf_new T)
  rw [hk2, List.range_eq_range']
  have hz : (Tree.new T).nodes.length = 0 := rfl
  rw [hz]
  have hlen : (buildTree reqs).nodes.length = k := by
    simp only [buildTree]
    omega
  rw [hlen]

/-- C6: insertion fails with `RootReplacement` exactly when `AsRoot` is
requested on a tree that already holds a node, fails with
`NonExistentParent p` exactly when `Under p` names an id at or beyond the
current length, and succeeds in every other case — for every tree whose
counter is consistent (as after construction) or zeroed (as after
deserialization). -/
theorem c6_insert_error_spec {T : Type} (t : Immutree.Tree T) (e : T) (p : Nat)
    (hnext : t.next_node_id = t.nodes.length ∨ t.next_node_id = 0) :
    ((t.insert e .AsRoot).1 = .error .RootReplacement ↔ t.nodes.length ≠ 0) ∧
    ((t.insert e (.Under p)).1 = .error (.NonExistentParent p) ↔
      t.nodes.length ≤ p) ∧
    (t.nodes.length = 0 → (t.insert e .AsRoot).1 = .ok 0) ∧
    (p < t.nodes.length → (t.insert e (.Under p)).1 = .ok t.nodes.length) := by
  rcases hnext with hn | hn
  · exact insert_spec_of_next_eq hn e p
  · obtain ⟨ns, nx⟩ := t
    simp only at hn
    subst hn
    have hnorm := fun (m : InsertMode) => insert_normalize ns e m
    rw [hnorm .AsRoot, hnorm (.Under p)]
    exact insert_spec_of_next_eq rfl e p

/-- C6 witness: on the one-node tree, a second root insertion fails with
`RootReplacement` and an insertion under the unassigned id 3 fails with
`NonExistentParent 3`. -/
theorem c6_insert_error_spec_witness :
    ((buildTree [((0 : Nat), .AsRoot)]).insert 5 .AsRoot).1 =
      .error .RootReplacement ∧
    ((buildTree [((0 : Nat), .AsRoot)]).insert 5 (.Under 3)).1 =
      .error (.NonExistentParent 3) :=
  ⟨((c6_insert_error_spec (buildTree [((0 : Nat), .AsRoot)]) 5 3
      (Or.inl rfl)).1).mpr (by decide),
   ((c6_insert_error_spec (buildTree [((0 : Nat), .AsRoot)]) 5 3
      (Or.inl rfl)).2.1).mpr (by decide)⟩

/-- C10: a failed insertion leaves the tree observably unchanged — the
node store, hence the length, every payload lookup, and every traversal
result are the same after the failed call as before it (for every tree
state whatsoever). -/
theorem c10_insert_atomic_on_failure {T : Type} (t : Immutree.Tree T) (e : T)
    (m : InsertMode) (err : Immutree.Error)
    (h : (t.insert e m).1 = .error err) :
    (t.insert e m).2.nodes = t.nodes ∧
    (t.insert e m).2.len = t.len ∧
    (∀ id, (t.insert e m).2.get_by_id id = t.get_by_id id) ∧
    (∀ id, (t.insert e m).2.immediate_descendant_ids id =
      t.immediate_descendant_ids id) ∧
    (∀ id, (t.insert e m).2.leaf_descendant_ids id = t.leaf_descendant_ids id) ∧
    (∀ id, (t.insert e m).2.ancestor_ids id = t.ancestor_ids id) ∧
    (∀ id, (t.insert e m).2.parent_id id = t.parent_id id) := by
  have hn := insert_err_nodes h
  refine ⟨hn, ?_, ?_, ?_, ?_, ?_, ?_⟩
  · simp [Tree.len, hn]
  · intro id; simp [Tree.get_by_id, hn]
  · intro id; simp [Tree.immediate_descendant_ids, hn]
  · intro id; simp [Tree.leaf_descendant_ids, hn]
  · intro id; simp [Tree.ancestor_ids, hn]
  · intro id; simp [Tree.parent_id, hn]

/-- C10 witness: a failed second root insertion leaves the one-node tree's
store and length unchanged. -/
theorem c10_insert_atomic_on_failure_witness :
    ((buildTree [((0 : Nat), .AsRoot)]).insert 1 .AsRoot).2.nodes =
      (buildTree [((0 : Nat), .AsRoot)]).nodes ∧
    ((buildTree [((0 : Nat), .AsRoot)]).insert 1 .AsRoot).2.len =
      (buildTree [((0 : Nat), .AsRoot)]).len :=
  ⟨(c10_insert_atomic_on_failure (buildTree [((0 : Nat), .AsRoot)]) 1 .AsRoot
      .RootReplacement rfl).1,
   (c10_insert_atomic_on_failure (buildTree [((0 : Nat), .AsRoot)]) 1 .AsRoot
      .RootReplacement rfl).2.1⟩

/-- C5: whenever an insertion `Under p` into a built tree succeeds with id
`n`, then after any further insertions the parent of `n` is `p`, the id
`n` occurs in exactly one child list across the whole store, `n` is
strictly greater than `p`, and node 0 has no parent. -/
theorem c5_parent_linkage {T : Type} (reqs1 rest : List (T × InsertMode))
    (e : T) (p n : Nat)
    (hok : ((buildTree reqs1).insert e (.Under p)).1 = .ok n) :
    p < n ∧
    (runFrom ((buildTree reqs1).insert e (.Under p)).2 rest).parent_id n =
      some p ∧
    countIn (runFrom ((buildTree reqs1).insert e (.Under p)).2 rest).nodes n
      = 1 ∧
    (runFrom ((buildTree reqs1).insert e (.Under p)).2 rest).parent_id 0 =
      none := by
  have h1 : WF (buildTree reqs1) := built_wf ⟨reqs1, rfl⟩
  by_cases hp : p < (buildTree reqs1).nodes.length
  · have hins := insert_under_ok h1.next_eq hp e
    have hn : (buildTree reqs1).nodes.length = n := by
      rw [hins] at hok
      simpa using hok
    have ht2 : ((buildTree reqs1).insert e (.Under p)).2 =
        { nodes := addChildAt (buildTree reqs1).nodes p
            (buildTree reqs1).nodes.length
            ++ [{ data := e, children := none }],
          next_node_id := (buildTree reqs1).nodes.length + 1 } := by
      rw [hins]
    rw [ht2]
    have hwf2 := wf_after_under h1 hp e
    have htn0 : ∃ tn0, (buildTree reqs1).nodes.get? p = some tn0 := by
      cases hg : (buildTree reqs1).nodes.get? p with
      | none =>
        rw [List.get?_eq_none] at hg
        omega
      | some tn0 => exact ⟨tn0, rfl⟩
    obtain ⟨tn0, htn0⟩ := htn0
    have hmem : hasChildIn (addChildAt (buildTree reqs1).nodes p
        (buildTree reqs1).nodes.length
        ++ [({ data := e, children := none } : TreeNode T)]) p
        (buildTree reqs1).nodes.length := by
      refine ⟨tn0.add_child_id (buildTree reqs1).nodes.length, ?_, ?_⟩
      · rw [List.get?_append (by rw [addChildAt_length]; omega),
          addChildAt_get?, if_pos rfl, htn0]
        rfl
      · simp only [TreeNode.add_child_id, Option.getD_some]
        exact List.mem_append.mpr (Or.inr (by simp))
    have hcnt : countIn (addChildAt (buildTree reqs1).nodes p
        (buildTree reqs1).nodes.length
        ++ [({ data := e, children := none } : TreeNode T)])
        (buildTree reqs1).nodes.length = 1 := by
      rw [countIn_append, countIn_addChildAt hp]
      have hsing : countIn [({ data := e, children := none } : TreeNode T)]
          (buildTree reqs1).nodes.length = 0 := by
        simp [countIn]
      rw [hsing, countIn_eq_zero_of_len_le h1 (le_refl _)]
      simp
    have hlt : (buildTree reqs1).nodes.length <
        (addChildAt (buildTree reqs1).nodes p (buildTree reqs1).nodes.length
          ++ [({ data := e, children := none } : TreeNode T)]).length := by
      rw [List.length_append, addChildAt_length]
      simp
    obtain ⟨hkeep1, hkeep2⟩ := runFrom_keeps rest hwf2 hlt hmem hcnt
    have hwfF := runFrom_wf hwf2 rest
    refine ⟨by omega, ?_, ?_, ?_⟩
    · rw [← hn]
      show parentFind _ (buildTree reqs1).nodes.length 0 = some p
      rw [parentFind_eq_some hkeep2 hkeep1 0]
      simp
    · rw [← hn]
      exact hkeep2
    · show parentFind _ 0 0 = none
      exact parentFind_eq_none hwfF.count_root 0
  · rw [insert_under_err h1.next_eq (Nat.le_of_not_lt hp) e] at hok
    cases hok

/-- C5 witness: inserting payload 7 under the root of a one-node tree
yields id 1, whose parent is 0, occurring once, with the root parentless. -/
theorem c5_parent_linkage_witness :
    0 < 1 ∧
    (runFrom ((buildTree [((0 : Nat), .AsRoot)]).insert 7 (.Under 0)).2
      []).parent_id 1 = some 0 ∧
    countIn (runFrom ((buildTree [((0 : Nat), .AsRoot)]).insert 7
      (.Under 0)).2 []).nodes 1 = 1 ∧
    (runFrom ((buildTree [((0 : Nat), .AsRoot)]).insert 7 (.Under 0)).2
      []).parent_id 0 = none :=
  c5_parent_linkage [((0 : Nat), .AsRoot)] [] 7 0 1 rfl

/-- C2 counterexample: on the one-node tree, reading the ancestors of the
non-existent id 1 does not yield an empty sequence — iterating hits the
out-of-bounds index `parents[1]` (modelled as `none`), so the claim fails
at this input. -/
theorem c2_counterexample :
    ¬ (buildTree [((0 : Nat), .AsRoot)]).ancestor_ids 1 = some [] := by
  decide

/-- C2 amended: for every tree and every id at or beyond the length,
`childIds` and `leafIds` fail with `InvalidNodeId`, while `ancestorIds` is
constructed without any error but its first iteration step indexes the
parent map out of bounds — a panic, modelled `none` — instead of yielding
an empty sequence. -/
theorem c2_invalid_id_behavior {T : Type} (t : Immutree.Tree T) (id : Nat)
    (h : t.nodes.length ≤ id) :
    t.immediate_descendant_ids id = .error (.InvalidNodeId id) ∧
    t.leaf_descendant_ids id = .error (.InvalidNodeId id) ∧
    t.ancestor_ids id = none := by
  have hg : t.nodes.get? id = none := List.get?_eq_none.mpr h
  refine ⟨?_, ?_, ?_⟩
  · simp [Tree.immediate_descendant_ids, ← List.get?_eq_getElem?, hg]
  · simp [Tree.leaf_descendant_ids, ← List.get?_eq_getElem?, hg]
  · have hpm : (parentsMap t.nodes).get? id = none := by
      rw [List.get?_eq_none, parentsMap_length]
      exact h
    show ancestorLoop (parentsMap t.nodes) id (t.nodes.length + 1) = none
    simp [ancestorLoop, ← List.get?_eq_getElem?, hpm]

/-- C2 amended witness: the concrete behavior on the one-node tree at the
non-existent id 1. -/
theorem c2_invalid_id_behavior_witness :
    (buildTree [((0 : Nat), .AsRoot)]).immediate_descendant_ids 1 =
      .error (.InvalidNodeId 1) ∧
    (buildTree [((0 : Nat), .AsRoot)]).leaf_descendant_ids 1 =
      .error (.InvalidNodeId 1) ∧
    (buildTree [((0 : Nat), .AsRoot)]).ancestor_ids 1 = none :=
  c2_invalid_id_behavior (buildTree [((0 : Nat), .AsRoot)]) 1 (by decide)

/-- C7: in every built tree, `leafIds` from a valid id succeeds; every id
it yields is reachable from the start and denotes a node with no
children; and when the start itself has no children the yield is exactly
`[id]`. -/
theorem c7_leaf_containment {T : Type} (t : Immutree.Tree T) (id : Nat)
    (hb : Built t) (hid : id < t.nodes.length) :
    ∃ l, t.leaf_descendant_ids id = .ok (some l) ∧
      (∀ x ∈ l, ReachableFrom t.nodes id x ∧
        ∃ tn, t.nodes.get? x = some tn ∧ tn.children.getD [] = []) ∧
      (∀ tn, t.nodes.get? id = some tn → tn.children.getD [] = [] →
        l = [id]) := by
  have h := built_wf hb
  obtain ⟨tn, htn⟩ : ∃ tn, t.nodes.get? id = some tn := by
    cases hg : t.nodes.get? id with
    | none => rw [List.get?_eq_none] at hg; omega
    | some tn => exact ⟨tn, rfl⟩
  have hw : stackWeight t.nodes.length [id] < 2 ^ t.nodes.length + 1 := by
    have hle : 2 ^ (t.nodes.length - id) ≤ 2 ^ t.nodes.length :=
      Nat.pow_le_pow_right (by omega) (by omega)
    simp only [stackWeight, List.map_cons, List.map_nil, List.sum_cons,
      List.sum_nil]
    omega
  obtain ⟨l, hl, hprop⟩ := leafLoop_total h (2 ^ t.nodes.length + 1) [id]
    (by intro x hx; simp at hx; omega) hw
  refine ⟨l, ?_, ?_, ?_⟩
  · simp [Tree.leaf_descendant_ids, ← List.get?_eq_getElem?, htn, hl]
  · intro x hx
    obtain ⟨⟨s, hs, hr⟩, tn2, htn2, hcs2⟩ := hprop x hx
    simp only [List.mem_singleton] at hs
    subst hs
    exact ⟨hr, tn2, htn2, by simp [hcs2]⟩
  · intro tn3 htn3 hcs3
    have hnone : tn3.children = none := by
      cases hc : tn3.children with
      | none => rfl
      | some cs =>
        have hne := (h.child_sound id tn3 htn3 cs hc).1
        rw [hc] at hcs3
        simp at hcs3
        exact absurd hcs3 hne
    obtain ⟨f2, hf2⟩ : ∃ f2, 2 ^ t.nodes.length = f2 + 1 :=
      ⟨2 ^ t.nodes.length - 1, by
        have := Nat.one_le_two_pow (n := t.nodes.length)
        omega⟩
    rw [show 2 ^ t.nodes.length + 1 = (f2 + 1) + 1 by omega] at hl
    simp only [leafLoop, ← List.get?_eq_getElem?, htn3, hnone] at hl
    simpa using hl.symm

/-- C7 witness: the three-node tree root→{1,2} at id 0 (and at leaf id 1
through the general statement's last conjunct shape). -/
theorem c7_leaf_containment_witness :
    ∃ l, (buildTree [((0 : Nat), .AsRoot), (1, .Under 0),
        (2, .Under 0)]).leaf_descendant_ids 0 = .ok (some l) ∧
      (∀ x ∈ l, ReachableFrom (buildTree [((0 : Nat), .AsRoot), (1, .Under 0),
        (2, .Under 0)]).nodes 0 x ∧
        ∃ tn, (buildTree [((0 : Nat), .AsRoot), (1, .Under 0),
          (2, .Under 0)]).nodes.get? x = some tn ∧ tn.children.getD [] = []) ∧
      (∀ tn, (buildTree [((0 : Nat), .AsRoot), (1, .Under 0),
          (2, .Under 0)]).nodes.get? 0 = some tn → tn.children.getD [] = [] →
        l = [0]) :=
  c7_leaf_containment (buildTree [((0 : Nat), .AsRoot), (1, .Under 0),
    (2, .Under 0)]) 0 ⟨[((0 : Nat), .AsRoot), (1, .Under 0), (2, .Under 0)],
    rfl⟩ (by decide)

/-- C3: deserializing the serialization of a built tree succeeds and
yields a tree with the very same node store, on which `leafIds`,
`ancestorIds` and `childIds` agree with the original at every id; and in
the serialized document a node with no children carries no `desc` key at
all. -/
theorem c3_roundtrip {T : Type} (enc : T → Json) (dec : Json → Option T)
    (hdec : ∀ x, dec (enc x) = some x) (t : Immutree.Tree T)
    (hb : Built t) :
    ∃ t2, deserializeTree dec (serializeTree enc t) = some t2 ∧
      t2.nodes = t.nodes ∧
      (∀ id, t2.leaf_descendant_ids id = t.leaf_descendant_ids id) ∧
      (∀ id, t2.ancestor_ids id = t.ancestor_ids id) ∧
      (∀ id, t2.immediate_descendant_ids id = t.immediate_descendant_ids id) ∧
      (∀ tn ∈ t.nodes, tn.children.getD [] = [] →
        serializeNode enc tn = .obj [("data", enc tn.data)]) := by
  have h := built_wf hb
  refine ⟨{ nodes := t.nodes, next_node_id := 0 },
    deserialize_serialize enc dec hdec t, rfl,
    fun id => rfl, fun id => rfl, fun id => rfl, ?_⟩
  intro tn hmem hempty
  obtain ⟨i, hi⟩ := List.get?_of_mem hmem
  have hnone : tn.children = none := by
    cases hc : tn.children with
    | none => rfl
    | some cs =>
      have hne := (h.child_sound i tn hi cs hc).1
      rw [hc] at hempty
      simp at hempty
      exact absurd hempty hne
  simp [serializeNode, hnone]

/-- C3 witness: the concrete two-node tree over `Nat` payloads with the
numeric JSON codec. -/
theorem c3_roundtrip_witness :
    ∃ t2, deserializeTree jNat (serializeTree
        (fun (n : Nat) => Json.num (n : Int))
        (buildTree [((0 : Nat), .AsRoot), (1, .Under 0)])) = some t2 ∧
      t2.nodes = (buildTree [((0 : Nat), .AsRoot), (1, .Under 0)]).nodes ∧
      (∀ id, t2.leaf_descendant_ids id =
        (buildTree [((0 : Nat), .AsRoot), (1, .Under 0)]).leaf_descendant_ids
          id) ∧
      (∀ id, t2.ancestor_ids id =
        (buildTree [((0 : Nat), .AsRoot), (1, .Under 0)]).ancestor_ids id) ∧
      (∀ id, t2.immediate_descendant_ids id =
        (buildTree [((0 : Nat), .AsRoot),
          (1, .Under 0)]).immediate_descendant_ids id) ∧
      (∀ tn ∈ (buildTree [((0 : Nat), .AsRoot), (1, .Under 0)]).nodes,
        tn.children.getD [] = [] →
        serializeNode (fun (n : Nat) => Json.num (n : Int)) tn =
          .obj [("data", Json.num (tn.data : Int))]) :=
  c3_roundtrip (fun (n : Nat) => Json.num (n : Int)) jNat
    (fun x => by simp [jNat])
    (buildTree [((0 : Nat), .AsRoot), (1, .Under 0)])
    ⟨[((0 : Nat), .AsRoot), (1, .Under 0)], rfl⟩

/-- C8 counterexample: two one-node trees differing only in
absent-versus-empty child list on which `leafIds` disagrees (the
present-but-empty list yields no leaf at all) and serialization disagrees
(the present-but-empty list emits an empty `desc` array). -/
theorem c8_counterexample :
    TreeAE ({ nodes := [{ data := (0 : Nat), children := none }], next_node_id := 1 } : Immutree.Tree Nat)
      { nodes := [{ data := 0, children := some [] }], next_node_id := 1 } ∧
    ({ nodes := [{ data := (0 : Nat), children := none }], next_node_id := 1 } : Immutree.Tree Nat).leaf_descendant_ids 0 =
      .ok (some [0]) ∧
    ({ nodes := [{ data := (0 : Nat), children := some [] }], next_node_id := 1 } : Immutree.Tree Nat).leaf_descendant_ids 0 =
      .ok (some []) ∧
    serializeNode (fun (n : Nat) => Json.num (n : Int))
      { data := (0 : Nat), children := none } = .obj [("data", .num 0)] ∧
    serializeNode (fun (n : Nat) => Json.num (n : Int))
      { data := (0 : Nat), children := some [] } =
      .obj [("data", .num 0), ("desc", .arr [])] := by
  refine ⟨List.Forall₂.cons ⟨rfl, rfl⟩ List.Forall₂.nil, rfl, rfl, rfl, rfl⟩

/-- C8 amended: `get`, `childIds`, `parentId` and `ancestorIds` treat a
node with an absent child list identically to one with a present-but-empty
child list (for any two trees differing only in that way), but `leafIds`
and serialization do not — see the counterexample. -/
theorem c8_absent_empty_readers {T : Type} (t1 t2 : Immutree.Tree T)
    (h : TreeAE t1 t2) :
    (∀ id, t1.get_by_id id = t2.get_by_id id) ∧
    (∀ id, t1.immediate_descendant_ids id = t2.immediate_descendant_ids id) ∧
    (∀ id, t1.parent_id id = t2.parent_id id) ∧
    (∀ id, t1.ancestor_ids id = t2.ancestor_ids id) := by
  have hlen := List.Forall₂.length_eq h
  refine ⟨?_, ?_, ?_, ?_⟩
  · intro id
    rcases forall₂_get?_rel h id with ⟨h1, h2⟩ | ⟨a, b, ha, hb, hab⟩
    · simp [Tree.get_by_id, ← List.get?_eq_getElem?, h1, h2]
    · simp [Tree.get_by_id, ← List.get?_eq_getElem?, ha, hb, hab.1]
  · intro id
    rcases forall₂_get?_rel h id with ⟨h1, h2⟩ | ⟨a, b, ha, hb, hab⟩
    · simp [Tree.immediate_descendant_ids, ← List.get?_eq_getElem?, h1, h2]
    · simp only [Tree.immediate_descendant_ids, ← List.get?_eq_getElem?,
        ha, hb]
      rw [childrenAE_getD hab.2]
  · intro id
    exact parentFind_AE h id 0
  · intro id
    unfold Tree.ancestor_ids
    rw [parentsMap_AE h, hlen]

/-- C8 amended witness: the four agreeing readers evaluated on the
counterexample pair of trees. -/
theorem c8_absent_empty_readers_witness :
    (∀ id, ({ nodes := [{ data := (0 : Nat), children := none }], next_node_id := 1 } : Immutree.Tree Nat).get_by_id id =
      ({ nodes := [{ data := 0, children := some [] }], next_node_id := 1 } : Immutree.Tree Nat).get_by_id id) ∧
    (∀ id, ({ nodes := [{ data := (0 : Nat), children := none }], next_node_id := 1 } : Immutree.Tree Nat).immediate_descendant_ids id =
      ({ nodes := [{ data := 0, children := some [] }], next_node_id := 1 } : Immutree.Tree Nat).immediate_descendant_ids id) ∧
    (∀ id, ({ nodes := [{ data := (0 : Nat), children := none }], next_node_id := 1 } : Immutree.Tree Nat).parent_id id =
      ({ nodes := [{ data := 0, children := some [] }], next_node_id := 1 } : Immutree.Tree Nat).parent_id id) ∧
    (∀ id, ({ nodes := [{ data := (0 : Nat), children := none }], next_node_id := 1 } : Immutree.Tree Nat).ancestor_ids id =
      ({ nodes := [{ data := 0, children := some [] }], next_node_id := 1 } : Immutree.Tree Nat).ancestor_ids id) :=
  c8_absent_empty_readers
    { nodes := [{ data := (0 : Nat), children := none }], next_node_id := 1 }
    { nodes := [{ data := 0, children := some [] }], next_node_id := 1 }
    (List.Forall₂.cons ⟨rfl, rfl⟩ List.Forall₂.nil)

end Claims

namespace Actitopo

open Immutree

theorem addAll_memArity {obj : NativeObj} (h2 : 2 ≤ obj.memChildren.length)
    (t : Immutree.Tree Element) (pid : Nat) :
    addAll t pid obj = .error (.MemoryArity obj.memChildren.length) ∧
    addIsol t pid obj = .error (.MemoryArity obj.memChildren.length) := by
  obtain ⟨ty, osi, li, ca, ch, mch⟩ := obj
  simp only [NativeObj.memChildren] at h2 ⊢
  cases mch with
  | nil => simp at h2
  | cons m1 ms =>
    cases ms with
    | nil => simp at h2
    | cons m2 ms2 =>
      constructor
      · simp only [addAll]
      · simp only [addIsol]

theorem addAll_noMem {obj : NativeObj} (h0 : obj.memChildren = [])
    (t : Immutree.Tree Element) (pid : Nat) :
    addAll t pid obj = addAllKids t pid obj.children ∧
    addIsol t pid obj = addIsolKids t pid obj.children.length obj.children := by
  obtain ⟨ty, osi, li, ca, ch, mch⟩ := obj
  simp only [NativeObj.memChildren] at h0
  subst h0
  constructor
  · simp only [addAll, NativeObj.children]
  · simp only [addIsol, NativeObj.children]

theorem addAll_oneMem {obj m : NativeObj} (h1 : obj.memChildren = [m])
    (hnuma : m.object_type = .NumaNode) {t : Immutree.Tree Element}
    (h : Immutree.WF t) {pid : Nat} (hpid : pid < t.nodes.length) :
    ∃ el, tryFromObj m = .ok el ∧
      addAll t pid obj =
        addAllKids
          { nodes := addChildAt t.nodes pid t.nodes.length
              ++ [{ data := el, children := none }],
            next_node_id := t.nodes.length + 1 }
          t.nodes.length obj.children ∧
      addIsol t pid obj =
        addIsolKids
          { nodes := addChildAt t.nodes pid t.nodes.length
              ++ [{ data := el, children := none }],
            next_node_id := t.nodes.length + 1 }
          t.nodes.length obj.children.length obj.children := by
  obtain ⟨ty, osi, li, ca, ch, mch⟩ := obj
  obtain ⟨mty, mosi, mli, mca, mch2, mmch2⟩ := m
  simp only [NativeObj.object_type] at hnuma
  subst hnuma
  simp only [NativeObj.memChildren] at h1
  subst h1
  refine ⟨.Processing (.NumaNode mosi), rfl, ?_, ?_⟩
  · simp only [addAll, NativeObj.object_type, tryFromObj, NativeObj.children]
    rw [insert_under_ok h.next_eq hpid]
  · simp only [addIsol, NativeObj.object_type, tryFromObj, NativeObj.children]
    rw [insert_under_ok h.next_eq hpid]

theorem detect_memArity {obj : NativeObj} {el : Element}
    (hel : tryFromObj obj = .ok el) (h2 : 2 ≤ obj.memChildren.length)
    (mode : DetectionMode) :
    detect mode (some obj) = .error (.MemoryArity obj.memChildren.length) := by
  simp only [detect, hel]
  have hins : (Immutree.Tree.new Element).insert el .AsRoot =
      (.ok 0, { nodes := [{ data := el, children := none }],
                next_node_id := 1 }) := rfl
  rw [hins]
  cases mode with
  | Full => exact (addAll_memArity h2 _ 0).1
  | IsolationBoundariesOnly => exact (addAll_memArity h2 _ 0).2

end Actitopo

section ClaimsTopo

open Actitopo Immutree

/-- C1 counterexample: reducing the Machine → Package → (sole child)
Core → (two Threads) hierarchy under `IsolationBoundariesOnly` does not
produce the claimed tree Machine → Core → \{Thread, Thread\} — the Core,
being itself a sole child of the Package, is elided too. -/
theorem c1_counterexample :
    ¬ detect .IsolationBoundariesOnly (some scenB_machine) =
      .ok
        { nodes := [
            { data := Element.Machine, children := some [1] },
            { data := .Processing (.Core 0), children := some [2, 3] },
            { data := .Processing (.Thread 0), children := none },
            { data := .Processing (.Thread 1), children := none }],
          next_node_id := 4 } := by
  intro hEq
  have hactual : detect .IsolationBoundariesOnly (some scenB_machine) =
      .ok
        { nodes := [
            { data := Element.Machine, children := some [1, 2] },
            { data := .Processing (.Thread 0), children := none },
            { data := .Processing (.Thread 1), children := none }],
          next_node_id := 3 } := by
    simp only [detect, scenB_machine, scenB_package, scenB_core, scenB_pu,
      tryFromObj, Tree.new, Tree.insert, addIsol, addIsolKids,
      NativeObj.object_type, addChildAt, TreeNode.add_child_id]
    rfl
  rw [hactual] at hEq
  exact absurd (Except.ok.inj hEq) (by decide)

/-- C1 amended: under `IsolationBoundariesOnly` every sole child is
elided — here both the Package (sole child of the Machine) and the Core
(sole child of the Package) — so the scenario reduces to
Machine → \{Thread, Thread\}; under `Full` all four levels are
materialized, nested exactly as in the native hierarchy. -/
theorem c1_reduction_scenarios :
    detect .IsolationBoundariesOnly (some scenB_machine) =
      .ok
        { nodes := [
            { data := Element.Machine, children := some [1, 2] },
            { data := .Processing (.Thread 0), children := none },
            { data := .Processing (.Thread 1), children := none }],
          next_node_id := 3 } ∧
    detect .Full (some scenB_machine) =
      .ok
        { nodes := [
            { data := Element.Machine, children := some [1] },
            { data := .Processing (.Package 0), children := some [2] },
            { data := .Processing (.Core 0), children := some [3, 4] },
            { data := .Processing (.Thread 0), children := none },
            { data := .Processing (.Thread 1), children := none }],
          next_node_id := 5 } := by
  constructor
  · simp only [detect, scenB_machine, scenB_package, scenB_core, scenB_pu,
      tryFromObj, Tree.new, Tree.insert, addIsol, addIsolKids,
      NativeObj.object_type, addChildAt, TreeNode.add_child_id]
    rfl
  · simp only [detect, scenB_machine, scenB_package, scenB_core, scenB_pu,
      tryFromObj, Tree.new, Tree.insert, addAll, addAllKids,
      NativeObj.object_type, addChildAt, TreeNode.add_child_id]
    rfl

/-- C9: a native object with more than one memory-attached child makes
both reduction recursions — and the whole detection — fail with
`MemoryArity(n)`, returning an error instead of any Topology; exactly one
memory-attached NumaNode child is inserted under the current parent and
becomes the effective parent for the ordinary children; with zero memory
children the parent is used unchanged. -/
theorem c9_memory_child_handling (t : Immutree.Tree Element)
    (h : Immutree.WF t) (pid : Nat) (hpid : pid < t.nodes.length)
    (obj : NativeObj) :
    (2 ≤ obj.memChildren.length →
      addAll t pid obj = .error (.MemoryArity obj.memChildren.length) ∧
      addIsol t pid obj = .error (.MemoryArity obj.memChildren.length) ∧
      ∀ el, tryFromObj obj = .ok el → ∀ mode,
        detect mode (some obj) =
          .error (.MemoryArity obj.memChildren.length)) ∧
    (obj.memChildren = [] →
      addAll t pid obj = addAllKids t pid obj.children ∧
      addIsol t pid obj =
        addIsolKids t pid obj.children.length obj.children) ∧
    (∀ m, obj.memChildren = [m] → m.object_type = .NumaNode →
      ∃ el, tryFromObj m = .ok el ∧
        addAll t pid obj =
          addAllKids
            { nodes := addChildAt t.nodes pid t.nodes.length
                ++ [{ data := el, children := none }],
              next_node_id := t.nodes.length + 1 }
            t.nodes.length obj.children ∧
        addIsol t pid obj =
          addIsolKids
            { nodes := addChildAt t.nodes pid t.nodes.length
                ++ [{ data := el, children := none }],
              next_node_id := t.nodes.length + 1 }
            t.nodes.length obj.children.length obj.children) := by
  refine ⟨?_, ?_, ?_⟩
  · intro h2
    exact ⟨(addAll_memArity h2 t pid).1, (addAll_memArity h2 t pid).2,
      fun el hel mode => detect_memArity hel h2 mode⟩
  · intro h0
    exact addAll_noMem h0 t pid
  · intro m h1 hnuma
    exact addAll_oneMem h1 hnuma h hpid

/-- C9 witness: the scenario-C machine with two memory children, against
the one-node tree holding the machine root. -/
theorem c9_memory_child_handling_witness :
    (2 ≤ scenC_machine.memChildren.length →
      addAll (buildTree [(Element.Machine, .AsRoot)]) 0 scenC_machine =
        .error (.MemoryArity scenC_machine.memChildren.length) ∧
      addIsol (buildTree [(Element.Machine, .AsRoot)]) 0 scenC_machine =
        .error (.MemoryArity scenC_machine.memChildren.length) ∧
      ∀ el, tryFromObj scenC_machine = .ok el → ∀ mode,
        detect mode (some scenC_machine) =
          .error (.MemoryArity scenC_machine.memChildren.length)) ∧
    (scenC_machine.memChildren = [] →
      addAll (buildTree [(Element.Machine, .AsRoot)]) 0 scenC_machine =
        addAllKids (buildTree [(Element.Machine, .AsRoot)]) 0
          scenC_machine.children ∧
      addIsol (buildTree [(Element.Machine, .AsRoot)]) 0 scenC_machine =
        addIsolKids (buildTree [(Element.Machine, .AsRoot)]) 0
          scenC_machine.children.length scenC_machine.children) ∧
    (∀ m, scenC_machine.memChildren = [m] → m.object_type = .NumaNode →
      ∃ el, tryFromObj m = .ok el ∧
        addAll (buildTree [(Element.Machine, .AsRoot)]) 0 scenC_machine =
          addAllKids
            { nodes := addChildAt
                (buildTree [(Element.Machine, .AsRoot)]).nodes 0
                (buildTree [(Element.Machine, .AsRoot)]).nodes.length
                ++ [{ data := el, children := none }],
              next_node_id :=
                (buildTree [(Element.Machine, .AsRoot)]).nodes.length + 1 }
            (buildTree [(Element.Machine, .AsRoot)]).nodes.length
            scenC_machine.children ∧
        addIsol (buildTree [(Element.Machine, .AsRoot)]) 0 scenC_machine =
          addIsolKids
            { nodes := addChildAt
                (buildTree [(Element.Machine, .AsRoot)]).nodes 0
                (buildTree [(Element.Machine, .AsRoot)]).nodes.length
                ++ [{ data := el, children := none }],
              next_node_id :=
                (buildTree [(Element.Machine, .AsRoot)]).nodes.length + 1 }
            (buildTree [(Element.Machine, .AsRoot)]).nodes.length
            scenC_machine.children.length scenC_machine.children) :=
  c9_memory_child_handling (buildTree [(Element.Machine, .AsRoot)])
    (built_wf ⟨[(Element.Machine, .AsRoot)], rfl⟩) 0 (by decide) scenC_machine

end ClaimsTopo
